import Mathlib

set_option maxRecDepth 8192

attribute [local semireducible] Rat.add Rat.sub Rat.mul Rat.inv

/-!
Shallow embedding of the metrics channel from src/metrics/src/channel.rs.

Machine integers (u64) are modelled as Nat with explicit reduction modulo
2^64 exactly where the source performs wrapping arithmetic; the atomic
wrappers (AtomicU64 get/set/add, AtomicBool load/store) collapse to plain
field reads and functional updates, since the embedding is sequential.
The f64 rate computation in Channel::record_counter is embedded by an
exact model of IEEE-754 binary64 arithmetic (rationals rounded to a
53-bit significand with round-to-nearest, ties to even, plus infinities
and NaN, and the saturating `as u64` cast of Rust).
-/

/-- The modulus 2^64 of u64 arithmetic. -/
def u64size : Nat := 18446744073709551616

/-- Wrapping u64 addition (AtomicU64::add / fetch_add semantics). -/
def u64add (a b : Nat) : Nat := (a + b) % u64size

/-- Wrapping u64 subtraction (u64::wrapping_sub). For a, b < 2^64 this is
(a + 2^64 - b) % 2^64. -/
def u64wsub (a b : Nat) : Nat := (a % u64size + (u64size - b % u64size)) % u64size

/-- IEEE-754 binary64 value: NaN, signed infinity, or a finite value
represented by its exact rational magnitude (negative rationals encode the
sign; the distinction between +0.0 and -0.0 is immaterial for the
computations embedded here, which never produce a negative zero that is
later observed). -/
inductive F64 where
  | nan : F64
  | inf (neg : Bool) : F64
  | fin (q : Rat) : F64
deriving DecidableEq

/-- Power of two over Nat, with the exponent split into chunks of at most
256 so that proofs by kernel evaluation stay within the evaluation limits
on exponentiation. -/
def npow2 (n : Nat) : Nat := (2 ^ (n % 256)) * (((2 : Nat) ^ 256) ^ (n / 256))

/-- Rational power of two with integer exponent. -/
def qpow2 (e : Int) : Rat :=
  if 0 ≤ e then ((npow2 e.toNat : Nat) : Rat) else 1 / ((npow2 (-e).toNat : Nat) : Rat)

/-- Floor of a rational as an integer (kernel-computable: floor division
of the normalized numerator by the positive denominator). -/
def ratFloor (q : Rat) : Int := Int.fdiv q.num (q.den : Int)

/-- Round a rational to an integer, nearest, ties to even. -/
def roundNE (x : Rat) : Int :=
  let n := ratFloor x
  let f := x - (n : Rat)
  if f < 1 / 2 then n
  else if 1 / 2 < f then n + 1
  else if n % 2 = 0 then n else n + 1

/-- Binary search for the floor of the base-2 logarithm of q, given the
invariant 2^lo ≤ q < 2^hi; the step budget is structural fuel, large
enough for the interval used below. -/
def ratLog2Search (q : Rat) : Int → Int → Nat → Int
  | lo, _, 0 => lo
  | lo, hi, steps + 1 =>
    if hi ≤ lo + 1 then lo
    else
      let mid := lo + (hi - lo) / 2
      if qpow2 mid ≤ q then ratLog2Search q mid hi steps
      else ratLog2Search q lo mid steps

/-- Round a positive rational to the nearest binary64 value (53-bit
significand, exponent clamped below at the subnormal limit, overflow to
infinity at 2^1024). Magnitudes at or above 2^1024 round to infinity;
magnitudes below 2^-1135 are far below half the least subnormal and round
to zero. -/
def roundPosF64 (q : Rat) : F64 :=
  if qpow2 1024 ≤ q then F64.inf false
  else if q < qpow2 (-1135) then F64.fin 0
  else
    let e := ratLog2Search q (-1135) 1024 16
    let prec := max (e - 52) (-1074)
    let m := roundNE (q / qpow2 prec)
    let r := (m : Rat) * qpow2 prec
    if qpow2 1024 ≤ r then F64.inf false else F64.fin r

/-- Round any rational to the nearest binary64 value. -/
def roundF64 (q : Rat) : F64 :=
  if q = 0 then F64.fin 0
  else if 0 < q then roundPosF64 q
  else
    match roundPosF64 (-q) with
    | F64.inf _ => F64.inf true
    | F64.fin r => F64.fin (-r)
    | F64.nan => F64.nan

/-- Rust `u64 as f64` cast: correctly rounded conversion. -/
def natAsF64 (n : Nat) : F64 := roundF64 (n : Rat)

/-- IEEE-754 binary64 multiplication. -/
def f64mul : F64 → F64 → F64
  | F64.nan, _ => F64.nan
  | _, F64.nan => F64.nan
  | F64.inf s, F64.inf t => F64.inf (xor s t)
  | F64.inf s, F64.fin q => if q = 0 then F64.nan else F64.inf (xor s (decide (q < 0)))
  | F64.fin q, F64.inf s => if q = 0 then F64.nan else F64.inf (xor s (decide (q < 0)))
  | F64.fin a, F64.fin b => roundF64 (a * b)

/-- IEEE-754 binary64 division. -/
def f64div : F64 → F64 → F64
  | F64.nan, _ => F64.nan
  | _, F64.nan => F64.nan
  | F64.inf _, F64.inf _ => F64.nan
  | F64.inf s, F64.fin q => F64.inf (xor s (decide (q < 0)))
  | F64.fin _, F64.inf _ => F64.fin 0
  | F64.fin a, F64.fin b =>
    if b = 0 then (if a = 0 then F64.nan else F64.inf (decide (a < 0)))
    else roundF64 (a / b)

/-- Rust `f64 as u64` cast: truncate toward zero, saturating at the u64
range, NaN to 0. -/
def f64AsU64 : F64 → Nat
  | F64.nan => 0
  | F64.inf s => if s then 0 else u64size - 1
  | F64.fin q =>
    if q ≤ 0 then 0
    else
      let n := (ratFloor q).toNat
      if n ≥ u64size then u64size - 1 else n

/-- The rate computed in Channel::record_counter, embedding the source
expression (delta_value as f64 * (1_000_000_000.0 / delta_time as f64)) as u64
with exact binary64 semantics. -/
def counter_rate (delta_value delta_time : Nat) : Nat :=
  f64AsU64 (f64mul (natAsF64 delta_value) (f64div (natAsF64 1000000000) (natAsF64 delta_time)))

example : counter_rate 100 1000000000 = 100 := by decide
example : counter_rate 250 2000000000 = 125 := by decide
example : counter_rate 0 0 = 0 := by decide
example : counter_rate 5 0 = u64size - 1 := by decide

/-- Atomic (value, time) pair tracking one extremum; time == 0 is the
sentinel for never set. -/
structure Point where
  value : Nat
  time : Nat
deriving DecidableEq, Repr

/-- Point::new. -/
def Point.new (value time : Nat) : Point := ⟨value, time⟩

/-- The max-tracking block repeated in record_counter, record_gauge and
record_time_interval: first observation wins unconditionally, thereafter
only a strictly greater value replaces. -/
def track_max (p : Point) (value time : Nat) : Point :=
  if p.time > 0 then
    if value > p.value then Point.new value time else p
  else Point.new value time

/-- The min-tracking block repeated in record_counter, record_gauge and
record_time_interval: first observation wins unconditionally, thereafter
only a strictly smaller value replaces. -/
def track_min (p : Point) (value time : Nat) : Point :=
  if p.time > 0 then
    if value < p.value then Point.new value time else p
  else Point.new value time

/-- The declared kind of a channel. -/
inductive Source where
  | counter
  | distribution
  | gauge
  | timeInterval
deriving DecidableEq, Repr

/-- Measurement events; the generic count type C (an unsigned primitive
widened to u64 wherever the source applies u64::from) is modelled as Nat. -/
inductive Measurement where
  | counter (value time : Nat)
  | distribution (value count time : Nat)
  | gauge (value time : Nat)
  | increment (count time : Nat)
  | timeInterval (start stop : Nat)
deriving DecidableEq, Repr

/-- The source a measurement variant is dispatched against in the record
functions (Counter and Increment check Source::Counter, the others their
namesake). -/
def Measurement.impliedSource : Measurement → Source
  | Measurement.counter .. => Source.counter
  | Measurement.distribution .. => Source.distribution
  | Measurement.gauge .. => Source.gauge
  | Measurement.increment .. => Source.counter
  | Measurement.timeInterval .. => Source.timeInterval

/-- The histogram state, as the list of (value, count) increments it has
received since the last clear. The bucketing internals are external to
this repository; only the increment / percentile / clear contract is used. -/
abbrev Hist := List (Nat × Nat)

/-- Histogram::increment(value, count). -/
def Hist.increment (h : Hist) (value count : Nat) : Hist := h ++ [(value, count)]

/-- Histogram::clear(). -/
def Hist.clear (_ : Hist) : Hist := []

/-- Total number of recorded occurrences. -/
def Hist.total_count (h : Hist) : Nat := (h.map (fun vc => vc.2)).sum

/-- Insertion into a list sorted by the bucket value. -/
def insertSorted (x : Nat × Nat) : List (Nat × Nat) → List (Nat × Nat)
  | [] => [x]
  | y :: ys => if x.1 ≤ y.1 then x :: y :: ys else y :: insertSorted x ys

/-- Sort increments by bucket value. -/
def sortByValue (l : List (Nat × Nat)) : List (Nat × Nat) := l.foldr insertSorted []

/-- Walk cumulative counts until the target rank is covered. -/
def percSelect : List (Nat × Nat) → Nat → Nat
  | [], _ => 0
  | (v, c) :: rest, target => if target ≤ c then v else percSelect rest (target - c)

/-- Ceiling of a rational as an integer. -/
def ratCeil (q : Rat) : Int := -(ratFloor (-q))

/-- Modelled from the spec: the histogram collaborator is external to this
repository and consumed only through the increment / percentile / clear
contract; percentile(p) returns the value at the given percentile, or none
if no data. The recorded increments are sorted by value and cumulative
counts are walked to the rank given by p percent of the total count. -/
def Hist.percentile (h : Hist) (p : Rat) : Option Nat :=
  let total := Hist.total_count h
  if total = 0 then none
  else some (percSelect (sortByValue h) (Int.toNat (ratCeil (p * (total : Rat) / 100))))

/-- A requested derived statistic. -/
inductive Output where
  | counter
  | maxPointTime
  | minPointTime
  | percentile (p : Rat)
deriving DecidableEq, Repr

/-- A materialized (name, output, value) snapshot entry. -/
structure Reading where
  name : String
  output : Output
  value : Nat
deriving DecidableEq, Repr

/-- Reading::new. -/
def Reading.new (name : String) (output : Output) (value : Nat) : Reading :=
  ⟨name, output, value⟩

/-- The channel state: the name mutex, atomic counter, atomic last-write,
atomic has-data flag and the output-set mutex collapse to plain fields in
this sequential embedding. -/
structure Channel where
  name : String
  source : Source
  counter : Nat
  histogram : Option Hist
  last_write : Nat
  latched : Bool
  max : Point
  min : Point
  outputs : List Output
  has_data : Bool
deriving DecidableEq, Repr

/-- Channel::new(name, source, histogram). -/
def Channel.new (name : String) (source : Source) (histogram : Option Hist) : Channel :=
  { name := name
    source := source
    counter := 0
    histogram := histogram
    last_write := 0
    latched := true
    max := Point.new 0 0
    min := Point.new 0 0
    outputs := []
    has_data := false }

/-- Channel::record_counter. -/
def Channel.record_counter (ch : Channel) (value time : Nat) : Channel :=
  if ch.source = Source.counter then
    if ch.has_data then
      let delta_value := u64wsub value ch.counter
      let delta_time := u64wsub time ch.last_write
      let rate := counter_rate delta_value delta_time
      { ch with
        counter := u64add ch.counter delta_value
        histogram := ch.histogram.map (fun h => Hist.increment h rate 1)
        max := track_max ch.max rate time
        min := track_min ch.min rate time
        last_write := time }
    else
      { ch with counter := value, has_data := true, last_write := time }
  else ch

/-- Channel::record_distribution. -/
def Channel.record_distribution (ch : Channel) (value count time : Nat) : Channel :=
  if ch.source = Source.distribution then
    { ch with
      counter := u64add ch.counter count
      histogram := ch.histogram.map (fun h => Hist.increment h value count)
      last_write := time }
  else ch

/-- Channel::record_gauge. -/
def Channel.record_gauge (ch : Channel) (value time : Nat) : Channel :=
  if ch.source = Source.gauge then
    { ch with
      counter := value
      histogram := ch.histogram.map (fun h => Hist.increment h value 1)
      max := track_max ch.max value time
      min := track_min ch.min value time
      last_write := time }
  else ch

/-- Channel::record_increment. -/
def Channel.record_increment (ch : Channel) (count time : Nat) : Channel :=
  if ch.source = Source.counter then
    { ch with
      counter := u64add ch.counter count
      histogram := ch.histogram.map (fun h => Hist.increment h count 1)
      last_write := time }
  else ch

/-- Channel::record_time_interval; the u64 duration stop - start wraps on
underflow (release semantics, as the spec describes). -/
def Channel.record_time_interval (ch : Channel) (start stop : Nat) : Channel :=
  if ch.source = Source.timeInterval then
    let duration := u64wsub stop start
    { ch with
      counter := u64add ch.counter 1
      histogram := ch.histogram.map (fun h => Hist.increment h duration 1)
      max := track_max ch.max duration start
      min := track_min ch.min duration start }
  else ch

/-- Channel::record, dispatching on the measurement tag. -/
def Channel.record (ch : Channel) (m : Measurement) : Channel :=
  match m with
  | Measurement.counter value time => ch.record_counter value time
  | Measurement.distribution value count time => ch.record_distribution value count time
  | Measurement.gauge value time => ch.record_gauge value time
  | Measurement.increment count time => ch.record_increment count time
  | Measurement.timeInterval start stop => ch.record_time_interval start stop

/-- Channel::percentile. -/
def Channel.percentile (ch : Channel) (p : Rat) : Option Nat :=
  match ch.histogram with
  | some h => Hist.percentile h p
  | none => none

/-- Channel::add_output (HashSet::insert). -/
def Channel.add_output (ch : Channel) (o : Output) : Channel :=
  if o ∈ ch.outputs then ch else { ch with outputs := ch.outputs ++ [o] }

/-- Channel::delete_output (HashSet::remove). -/
def Channel.delete_output (ch : Channel) (o : Output) : Channel :=
  { ch with outputs := ch.outputs.filter (fun x => x != o) }

/-- Channel::latch. -/
def Channel.latch (ch : Channel) : Channel :=
  { ch with
    histogram := if ch.latched then ch.histogram.map Hist.clear else ch.histogram
    max := Point.new 0 0
    min := Point.new 0 0 }

/-- Channel::zero. -/
def Channel.zero (ch : Channel) : Channel :=
  { ch with
    has_data := false
    last_write := 0
    counter := 0
    histogram := ch.histogram.map Hist.clear
    max := Point.new 0 0
    min := Point.new 0 0 }

/-- The value readings() and hash_map() both derive for one registered
output (the match duplicated in the two source functions): none when the
entry is omitted. MinPointTime is gated on the max Point timestamp in the
source. -/
def output_value (ch : Channel) (output : Output) : Option Nat :=
  match output with
  | Output.counter => some ch.counter
  | Output.maxPointTime => if ch.max.time > 0 then some ch.max.time else none
  | Output.minPointTime => if ch.max.time > 0 then some ch.min.time else none
  | Output.percentile p => ch.percentile p

/-- One iteration of the readings() loop: push a Reading when the output
has a value. -/
def readings_step (ch : Channel) (result : List Reading) (output : Output) : List Reading :=
  match output_value ch output with
  | some v => result ++ [Reading.new ch.name output v]
  | none => result

/-- Channel::readings. -/
def Channel.readings (ch : Channel) : List Reading :=
  ch.outputs.foldl (readings_step ch) []

/-- HashMap::insert modelled on an association list: replaces any previous
binding of the key. -/
def hm_insert (m : List (Output × Nat)) (key : Output) (value : Nat) : List (Output × Nat) :=
  m.filter (fun kv => kv.1 != key) ++ [(key, value)]

/-- One iteration of the hash_map() loop: insert when the output has a
value. -/
def hash_map_step (ch : Channel) (result : List (Output × Nat)) (output : Output) :
    List (Output × Nat) :=
  match output_value ch output with
  | some v => hm_insert result output v
  | none => result

/-- Channel::hash_map. -/
def Channel.hash_map (ch : Channel) : List (Output × Nat) :=
  ch.outputs.foldl (hash_map_step ch) []

/-- One public operation on a channel, used to quantify over all states
reachable through the public interface. -/
inductive Op where
  | record (m : Measurement)
  | latch
  | zero
  | add_output (o : Output)
  | delete_output (o : Output)
deriving DecidableEq, Repr

/-- Apply one public operation. -/
def Channel.applyOp (ch : Channel) : Op → Channel
  | Op.record m => ch.record m
  | Op.latch => ch.latch
  | Op.zero => ch.zero
  | Op.add_output o => ch.add_output o
  | Op.delete_output o => ch.delete_output o

/-!
Helper lemmas shared by the claim theorems.
-/

theorem applyOp_latched (ch : Channel) (op : Op) : (ch.applyOp op).latched = ch.latched := by
  cases op with
  | record m =>
    cases m <;>
      simp only [Channel.applyOp, Channel.record, Channel.record_counter,
        Channel.record_distribution, Channel.record_gauge, Channel.record_increment,
        Channel.record_time_interval] <;>
      split <;> (try split) <;> rfl
  | latch => rfl
  | zero => rfl
  | add_output o =>
    simp only [Channel.applyOp, Channel.add_output]
    split <;> rfl
  | delete_output o => rfl

theorem foldl_applyOp_latched (ops : List Op) (ch : Channel) :
    (ops.foldl Channel.applyOp ch).latched = ch.latched := by
  induction ops generalizing ch with
  | nil => rfl
  | cons op ops ih => rw [List.foldl_cons, ih, applyOp_latched]

/-!
Claim theorems.
-/

/-- Claim C2: on a Counter-source channel with has-data still false, the
first Counter measurement stores the raw value as the counter baseline,
sets has-data, advances last-write to the measurement time, and changes
nothing else: no rate, no histogram increment, no max/min update. -/
theorem record_counter_first (ch : Channel) (value time : Nat)
    (hs : ch.source = Source.counter) (hd : ch.has_data = false) :
    ch.record_counter value time =
      { ch with counter := value, has_data := true, last_write := time } := by
  simp [Channel.record_counter, hs, hd]

theorem record_counter_first_witness :
    (Channel.new "c" Source.counter (some [])).source = Source.counter ∧
    (Channel.new "c" Source.counter (some [])).has_data = false ∧
    (Channel.new "c" Source.counter (some [])).record_counter 42 7 =
      { Channel.new "c" Source.counter (some []) with
          counter := 42, has_data := true, last_write := 7 } :=
  ⟨rfl, rfl, record_counter_first (Channel.new "c" Source.counter (some [])) 42 7 rfl rfl⟩

/-- Claim C3: while a Point still has the unset sentinel (time = 0) the
new (value, time) pair is stored unconditionally; once its time is
positive, the max Point is replaced only by a strictly greater value and
the min Point only by a strictly smaller one, so an equal value never
replaces an existing extremum. -/
theorem extremum_update_rule (p : Point) (v t : Nat) :
    (p.time = 0 → track_max p v t = Point.new v t ∧ track_min p v t = Point.new v t) ∧
    (0 < p.time →
      track_max p v t = (if p.value < v then Point.new v t else p) ∧
      track_min p v t = (if v < p.value then Point.new v t else p)) ∧
    (0 < p.time → track_max p p.value t = p ∧ track_min p p.value t = p) := by
  refine ⟨fun h => ?_, fun h => ?_, fun h => ?_⟩ <;>
    simp [track_max, track_min, h]

theorem extremum_update_rule_witness :
    0 < (Point.new 7 5).time ∧
    (track_max (Point.new 7 5) 7 9 = Point.new 7 5 ∧
      track_min (Point.new 7 5) 7 9 = Point.new 7 5) :=
  ⟨by decide, (extremum_update_rule (Point.new 7 5) 7 9).2.2 (by decide)⟩

/-- Claim C4: a measurement whose implied source does not match the
declared Source of the channel is a silent no-op: record returns the state
unchanged (counter, histogram, last-write, has-data and both extrema
included). -/
theorem record_mismatch_noop (ch : Channel) (m : Measurement)
    (h : m.impliedSource ≠ ch.source) :
    ch.record m = ch := by
  cases m <;>
    simp only [Channel.record, Measurement.impliedSource] at h ⊢ <;>
    simp [Channel.record_counter, Channel.record_distribution, Channel.record_gauge,
      Channel.record_increment, Channel.record_time_interval, Ne.symm h]

theorem record_mismatch_noop_witness :
    (Measurement.gauge 5 1).impliedSource ≠ (Channel.new "c" Source.counter none).source ∧
    (Channel.new "c" Source.counter none).record (Measurement.gauge 5 1) =
      Channel.new "c" Source.counter none :=
  ⟨by decide, record_mismatch_noop (Channel.new "c" Source.counter none)
    (Measurement.gauge 5 1) (by decide)⟩

/-- Claim C6: latch() resets both extrema Points to the unset sentinel
unconditionally, clears the histogram exactly when the channel is latched,
and leaves the running counter, has-data flag and last-write unchanged. -/
theorem latch_effects (ch : Channel) :
    ch.latch.max = Point.new 0 0 ∧
    ch.latch.min = Point.new 0 0 ∧
    ch.latch.counter = ch.counter ∧
    ch.latch.has_data = ch.has_data ∧
    ch.latch.last_write = ch.last_write ∧
    (ch.latched = true → ch.latch.histogram = ch.histogram.map Hist.clear) ∧
    (ch.latched = false → ch.latch.histogram = ch.histogram) := by
  refine ⟨rfl, rfl, rfl, rfl, rfl, fun h => ?_, fun h => ?_⟩ <;>
    simp [Channel.latch, h]

theorem latch_effects_witness :
    (Channel.new "c" Source.gauge (some [(3, 2)])).latched = true ∧
    (Channel.new "c" Source.gauge (some [(3, 2)])).latch.histogram =
      (Channel.new "c" Source.gauge (some [(3, 2)])).histogram.map Hist.clear :=
  ⟨rfl, (latch_effects (Channel.new "c" Source.gauge (some [(3, 2)]))).2.2.2.2.2.1 rfl⟩

/-- Claim C10: every channel built by Channel::new has latched hardcoded
to true, no public operation ever changes the flag, and consequently
latch() on any reachable channel always clears an attached histogram. -/
theorem channels_always_latched (name : String) (source : Source)
    (histogram : Option Hist) (ops : List Op) :
    (ops.foldl Channel.applyOp (Channel.new name source histogram)).latched = true ∧
    (ops.foldl Channel.applyOp (Channel.new name source histogram)).latch.histogram =
      (ops.foldl Channel.applyOp (Channel.new name source histogram)).histogram.map
        Hist.clear := by
  have h : (ops.foldl Channel.applyOp (Channel.new name source histogram)).latched = true := by
    rw [foldl_applyOp_latched]; rfl
  exact ⟨h, by simp [Channel.latch, h]⟩

/-- Claim C1: a Counter measurement on a Counter-source channel that
already has data computes delta_value and delta_time by wrapping u64
subtraction from the stored counter and last-write, derives the rate by
the embedded binary64 expression (delta_value as f64) * (1e9 / (delta_time
as f64)) truncated to u64 (counter_rate), adds delta_value to the running
counter (so the counter tracks the raw value modulo 2^64), increments an
attached histogram with (rate, 1), updates both extrema Points with
(rate, time) and advances last-write. -/
theorem record_counter_subsequent (ch : Channel) (value time : Nat)
    (hs : ch.source = Source.counter) (hd : ch.has_data = true) :
    ch.record_counter value time =
      { ch with
        counter := u64add ch.counter (u64wsub value ch.counter)
        histogram := ch.histogram.map (fun h =>
          Hist.increment h
            (counter_rate (u64wsub value ch.counter) (u64wsub time ch.last_write)) 1)
        max := track_max ch.max
          (counter_rate (u64wsub value ch.counter) (u64wsub time ch.last_write)) time
        min := track_min ch.min
          (counter_rate (u64wsub value ch.counter) (u64wsub time ch.last_write)) time
        last_write := time } ∧
    (ch.counter < u64size →
      (ch.record_counter value time).counter = value % u64size) := by
  refine ⟨?_, fun hlt => ?_⟩
  · simp [Channel.record_counter, hs, hd]
  · simp [Channel.record_counter, hs, hd]
    simp only [u64add, u64wsub, u64size] at *
    omega

def chC1 : Channel :=
  { name := "c", source := Source.counter, counter := 100, histogram := some [],
    last_write := 5, latched := true, max := Point.new 0 0, min := Point.new 0 0,
    outputs := [], has_data := true }

theorem record_counter_subsequent_witness :
    chC1.source = Source.counter ∧ chC1.has_data = true ∧
    (chC1.record_counter 300 1000000005 =
      { chC1 with
        counter := u64add chC1.counter (u64wsub 300 chC1.counter)
        histogram := chC1.histogram.map (fun h =>
          Hist.increment h
            (counter_rate (u64wsub 300 chC1.counter) (u64wsub 1000000005 chC1.last_write)) 1)
        max := track_max chC1.max
          (counter_rate (u64wsub 300 chC1.counter) (u64wsub 1000000005 chC1.last_write))
          1000000005
        min := track_min chC1.min
          (counter_rate (u64wsub 300 chC1.counter) (u64wsub 1000000005 chC1.last_write))
          1000000005
        last_write := 1000000005 } ∧
      (chC1.counter < u64size →
        (chC1.record_counter 300 1000000005).counter = 300 % u64size)) ∧
    (chC1.record_counter 300 1000000005).histogram = some [(200, 1)] :=
  ⟨rfl, rfl, record_counter_subsequent chC1 300 1000000005 rfl rfl, by decide⟩

/-- Claim C8: a TimeInterval(start, stop) measurement on a
TimeInterval-source channel increments the running counter by exactly 1,
gives the histogram (stop - start, 1), updates both extrema Points over
the duration with start as the stored timestamp, and leaves last-write
unchanged; the other four variants, when their source matches, all
advance last-write to the measurement time. -/
theorem record_time_interval_effects (ch : Channel) (start stop : Nat)
    (hs : ch.source = Source.timeInterval) :
    ch.record_time_interval start stop =
      { ch with
        counter := u64add ch.counter 1
        histogram := ch.histogram.map (fun h => Hist.increment h (u64wsub stop start) 1)
        max := track_max ch.max (u64wsub stop start) start
        min := track_min ch.min (u64wsub stop start) start } ∧
    (ch.record_time_interval start stop).last_write = ch.last_write ∧
    (start ≤ stop → stop < u64size → u64wsub stop start = stop - start) ∧
    (∀ ch2 : Channel, ∀ v t : Nat, ch2.source = Source.counter →
      (ch2.record_counter v t).last_write = t) ∧
    (∀ ch2 : Channel, ∀ v c t : Nat, ch2.source = Source.distribution →
      (ch2.record_distribution v c t).last_write = t) ∧
    (∀ ch2 : Channel, ∀ v t : Nat, ch2.source = Source.gauge →
      (ch2.record_gauge v t).last_write = t) ∧
    (∀ ch2 : Channel, ∀ c t : Nat, ch2.source = Source.counter →
      (ch2.record_increment c t).last_write = t) := by
  refine ⟨?_, ?_, fun h1 h2 => ?_, fun ch2 v t h => ?_, fun ch2 v c t h => ?_,
    fun ch2 v t h => ?_, fun ch2 c t h => ?_⟩
  · simp [Channel.record_time_interval, hs]
  · simp [Channel.record_time_interval, hs]
  · simp only [u64wsub, u64size] at h2 ⊢
    omega
  · cases hd : ch2.has_data <;> simp [Channel.record_counter, h, hd]
  · simp [Channel.record_distribution, h]
  · simp [Channel.record_gauge, h]
  · simp [Channel.record_increment, h]

theorem record_time_interval_effects_witness :
    (Channel.new "t" Source.timeInterval (some [])).source = Source.timeInterval ∧
    100 ≤ 350 ∧ (350 : Nat) < u64size ∧
    u64wsub 350 100 = 350 - 100 ∧
    ((Channel.new "c" Source.counter none).record_counter 5 2).last_write = 2 ∧
    ((Channel.new "t" Source.timeInterval (some [])).record_time_interval 100 350).histogram =
      some [(250, 1)] :=
  ⟨rfl, by decide, by decide,
    (record_time_interval_effects (Channel.new "t" Source.timeInterval (some [])) 100 350
      rfl).2.2.1 (by decide) (by decide),
    (record_time_interval_effects (Channel.new "t" Source.timeInterval (some [])) 100 350
      rfl).2.2.2.1 (Channel.new "c" Source.counter none) 5 2 rfl,
    by decide⟩

theorem mem_readings_foldl (ch : Channel) (outs : List Output) (acc : List Reading)
    (r : Reading) :
    r ∈ outs.foldl (readings_step ch) acc ↔
      r ∈ acc ∨ ∃ o ∈ outs, ∃ v, output_value ch o = some v ∧ r = Reading.new ch.name o v := by
  induction outs generalizing acc with
  | nil => simp
  | cons o os ih =>
    rw [List.foldl_cons, ih]
    have hstep : r ∈ readings_step ch acc o ↔
        r ∈ acc ∨ ∃ v, output_value ch o = some v ∧ r = Reading.new ch.name o v := by
      unfold readings_step
      cases hov : output_value ch o <;> simp [hov]
    rw [hstep]
    constructor
    · rintro ((h | ⟨v, hov, hr⟩) | ⟨o2, ho2, v, hov, hr⟩)
      · exact Or.inl h
      · exact Or.inr ⟨o, List.mem_cons_self o os, v, hov, hr⟩
      · exact Or.inr ⟨o2, List.mem_cons_of_mem _ ho2, v, hov, hr⟩
    · rintro (h | ⟨o2, ho2, v, hov, hr⟩)
      · exact Or.inl (Or.inl h)
      · rcases List.mem_cons.mp ho2 with rfl | h2
        · exact Or.inl (Or.inr ⟨v, hov, hr⟩)
        · exact Or.inr ⟨o2, h2, v, hov, hr⟩

theorem mem_readings (ch : Channel) (r : Reading) :
    r ∈ ch.readings ↔
      ∃ o ∈ ch.outputs, ∃ v, output_value ch o = some v ∧ r = Reading.new ch.name o v := by
  unfold Channel.readings
  rw [mem_readings_foldl]
  simp

theorem hm_insert_mem (m : List (Output × Nat)) (key : Output) (value : Nat)
    (kv : Output × Nat) :
    kv ∈ hm_insert m key value ↔ (kv ∈ m ∧ kv.1 ≠ key) ∨ kv = (key, value) := by
  unfold hm_insert
  simp [List.mem_filter]

theorem mem_hash_map_foldl_key (ch : Channel) (k : Output) (v0 : Nat)
    (hk : output_value ch k = some v0) (outs : List Output) (acc : List (Output × Nat))
    (hacc : ∀ kv ∈ acc, kv.1 = k → kv.2 = v0) :
    ((k, v0) ∈ outs.foldl (hash_map_step ch) acc ↔ (k, v0) ∈ acc ∨ k ∈ outs) ∧
    (∀ kv ∈ outs.foldl (hash_map_step ch) acc, kv.1 = k → kv.2 = v0) := by
  induction outs generalizing acc with
  | nil => exact ⟨by simp, hacc⟩
  | cons o os ih =>
    rw [List.foldl_cons]
    have hacc2 : ∀ kv ∈ hash_map_step ch acc o, kv.1 = k → kv.2 = v0 := by
      intro kv hkv hk1
      unfold hash_map_step at hkv
      cases hov : output_value ch o with
      | none => rw [hov] at hkv; exact hacc kv hkv hk1
      | some v =>
        rw [hov] at hkv
        rcases (hm_insert_mem acc o v kv).mp hkv with ⟨hmem, _⟩ | heq
        · exact hacc kv hmem hk1
        · subst heq
          have : o = k := hk1
          subst this
          rw [hk] at hov
          exact (Option.some.injEq _ _ ▸ hov).symm
    refine ⟨?_, (ih _ hacc2).2⟩
    rw [(ih _ hacc2).1]
    by_cases ho : o = k
    · subst ho
      have hv : output_value ch o = some v0 := hk
      have hmem : (o, v0) ∈ hash_map_step ch acc o := by
        unfold hash_map_step
        rw [hv]
        exact (hm_insert_mem acc o v0 (o, v0)).mpr (Or.inr rfl)
      simp [hmem]
    · have hiff : (k, v0) ∈ hash_map_step ch acc o ↔ (k, v0) ∈ acc := by
        unfold hash_map_step
        cases hov : output_value ch o with
        | none => exact Iff.rfl
        | some v =>
          rw [hm_insert_mem]
          constructor
          · rintro (⟨hmem, _⟩ | heq)
            · exact hmem
            · exact absurd (congrArg Prod.fst heq) (fun e => ho (by simpa using e.symm))
          · intro hmem
            exact Or.inl ⟨hmem, fun e => ho e.symm⟩
      rw [hiff]
      constructor
      · rintro (h | h)
        · exact Or.inl h
        · exact Or.inr (List.mem_cons_of_mem _ h)
      · rintro (h | h)
        · exact Or.inl h
        · rcases List.mem_cons.mp h with h | h
          · exact absurd h.symm ho
          · exact Or.inr h

theorem mem_hash_map_foldl_absent (ch : Channel) (k : Output)
    (hk : output_value ch k = none) (outs : List Output) (acc : List (Output × Nat))
    (hacc : ∀ kv ∈ acc, kv.1 ≠ k) :
    ∀ kv ∈ outs.foldl (hash_map_step ch) acc, kv.1 ≠ k := by
  induction outs generalizing acc with
  | nil => exact hacc
  | cons o os ih =>
    rw [List.foldl_cons]
    refine ih _ ?_
    intro kv hkv
    unfold hash_map_step at hkv
    cases hov : output_value ch o with
    | none => rw [hov] at hkv; exact hacc kv hkv
    | some v =>
      rw [hov] at hkv
      rcases (hm_insert_mem acc o v kv).mp hkv with ⟨hmem, _⟩ | heq
      · exact hacc kv hmem
      · subst heq
        intro e
        have e2 : o = k := e
        rw [e2, hk] at hov
        exact Option.noConfusion hov

/-- Claim C5: in readings() and hash_map() the MinPointTime entry is
emitted if and only if the max Point timestamp is positive (the gate reads
the max Point, not the min Point), and when emitted it carries the min
Point timestamp as value; the MaxPointTime entry is likewise gated on the
max Point timestamp. -/
theorem min_point_time_gated_on_max (ch : Channel) :
    (Reading.new ch.name Output.minPointTime ch.min.time ∈ ch.readings ↔
      Output.minPointTime ∈ ch.outputs ∧ 0 < ch.max.time) ∧
    (∀ r ∈ ch.readings, r.output = Output.minPointTime →
      r.value = ch.min.time ∧ 0 < ch.max.time) ∧
    (Reading.new ch.name Output.maxPointTime ch.max.time ∈ ch.readings ↔
      Output.maxPointTime ∈ ch.outputs ∧ 0 < ch.max.time) ∧
    ((Output.minPointTime, ch.min.time) ∈ ch.hash_map ↔
      Output.minPointTime ∈ ch.outputs ∧ 0 < ch.max.time) ∧
    (∀ kv ∈ ch.hash_map, kv.1 = Output.minPointTime →
      kv.2 = ch.min.time ∧ 0 < ch.max.time) ∧
    ((Output.maxPointTime, ch.max.time) ∈ ch.hash_map ↔
      Output.maxPointTime ∈ ch.outputs ∧ 0 < ch.max.time) := by
  have hemp : ∀ kv : Output × Nat, kv ∈ ([] : List (Output × Nat)) → kv.1 ≠ Output.minPointTime := by
    intro kv h; simp at h
  have hempv : ∀ kv : Output × Nat, kv ∈ ([] : List (Output × Nat)) →
      kv.1 = Output.minPointTime → kv.2 = ch.min.time := by
    intro kv h; simp at h
  have hempmax : ∀ kv : Output × Nat, kv ∈ ([] : List (Output × Nat)) →
      kv.1 = Output.maxPointTime → kv.2 = ch.max.time := by
    intro kv h; simp at h
  have hdef : ch.hash_map = ch.outputs.foldl (hash_map_step ch) [] := rfl
  refine ⟨?_, ?_, ?_, ?_, ?_, ?_⟩
  · constructor
    · intro hr
      rw [mem_readings] at hr
      obtain ⟨o, ho, v, hov, heq⟩ := hr
      have hinj : ch.name = ch.name ∧ Output.minPointTime = o ∧ ch.min.time = v := by
        simpa [Reading.new, Reading.mk.injEq] using heq
      obtain ⟨-, ho2, hv2⟩ := hinj
      subst ho2
      simp only [output_value] at hov
      by_cases hg : ch.max.time > 0
      · exact ⟨ho, hg⟩
      · rw [if_neg hg] at hov
        exact Option.noConfusion hov
    · rintro ⟨hmem, hg⟩
      rw [mem_readings]
      exact ⟨Output.minPointTime, hmem, ch.min.time, by simp [output_value, hg], rfl⟩
  · intro r hr hro
    rw [mem_readings] at hr
    obtain ⟨o, ho, v, hov, rfl⟩ := hr
    have ho2 : o = Output.minPointTime := hro
    subst ho2
    simp only [output_value] at hov
    by_cases hg : ch.max.time > 0
    · rw [if_pos hg] at hov
      exact ⟨(Option.some.inj hov).symm, hg⟩
    · rw [if_neg hg] at hov
      exact Option.noConfusion hov
  · constructor
    · intro hr
      rw [mem_readings] at hr
      obtain ⟨o, ho, v, hov, heq⟩ := hr
      have hinj : ch.name = ch.name ∧ Output.maxPointTime = o ∧ ch.max.time = v := by
        simpa [Reading.new, Reading.mk.injEq] using heq
      obtain ⟨-, ho2, hv2⟩ := hinj
      subst ho2
      simp only [output_value] at hov
      by_cases hg : ch.max.time > 0
      · exact ⟨ho, hg⟩
      · rw [if_neg hg] at hov
        exact Option.noConfusion hov
    · rintro ⟨hmem, hg⟩
      rw [mem_readings]
      exact ⟨Output.maxPointTime, hmem, ch.max.time, by simp [output_value, hg], rfl⟩
  · by_cases hg : ch.max.time > 0
    · have hk : output_value ch Output.minPointTime = some ch.min.time := by
        simp [output_value, hg]
      rw [hdef, (mem_hash_map_foldl_key ch Output.minPointTime ch.min.time hk
        ch.outputs [] hempv).1]
      simp [hg]
    · have hk : output_value ch Output.minPointTime = none := by
        simp [output_value, hg]
      have habs := mem_hash_map_foldl_absent ch Output.minPointTime hk ch.outputs [] hemp
      rw [hdef]
      constructor
      · intro hmem
        exact absurd rfl (habs _ hmem)
      · rintro ⟨-, hg2⟩
        exact absurd hg2 hg
  · intro kv hkv hk1
    by_cases hg : ch.max.time > 0
    · have hk : output_value ch Output.minPointTime = some ch.min.time := by
        simp [output_value, hg]
      rw [hdef] at hkv
      exact ⟨(mem_hash_map_foldl_key ch Output.minPointTime ch.min.time hk
        ch.outputs [] hempv).2 kv hkv hk1, hg⟩
    · have hk : output_value ch Output.minPointTime = none := by
        simp [output_value, hg]
      rw [hdef] at hkv
      exact absurd hk1 (mem_hash_map_foldl_absent ch Output.minPointTime hk ch.outputs [] hemp
        kv hkv)
  · by_cases hg : ch.max.time > 0
    · have hk : output_value ch Output.maxPointTime = some ch.max.time := by
        simp [output_value, hg]
      rw [hdef, (mem_hash_map_foldl_key ch Output.maxPointTime ch.max.time hk
        ch.outputs [] hempmax).1]
      simp [hg]
    · have hk : output_value ch Output.maxPointTime = none := by
        simp [output_value, hg]
      have habs := mem_hash_map_foldl_absent ch Output.maxPointTime hk ch.outputs []
        (by intro kv h; simp at h)
      rw [hdef]
      constructor
      · intro hmem
        exact absurd rfl (habs _ hmem)
      · rintro ⟨-, hg2⟩
        exact absurd hg2 hg

def chC5 : Channel :=
  { name := "m", source := Source.gauge, counter := 0, histogram := none,
    last_write := 0, latched := true, max := Point.new 9 4, min := Point.new 2 0,
    outputs := [Output.minPointTime, Output.maxPointTime], has_data := true }

theorem min_point_time_gated_on_max_witness :
    Reading.new "m" Output.minPointTime 0 ∈ chC5.readings ∧
    (Output.minPointTime, 0) ∈ chC5.hash_map :=
  ⟨(min_point_time_gated_on_max chC5).1.mpr (by decide),
   (min_point_time_gated_on_max chC5).2.2.2.1.mpr (by decide)⟩

/-- Claim C7: after zero() every query observes construction-time
defaults: counter 0, has-data false, last-write 0, both extrema at the
unset sentinel, percentile queries report no data, and readings() emits
nothing but Counter entries (value 0) - no MaxPointTime, MinPointTime or
Percentile readings. -/
theorem zero_resets_all (ch : Channel) :
    ch.zero.counter = 0 ∧
    ch.zero.has_data = false ∧
    ch.zero.last_write = 0 ∧
    ch.zero.max = Point.new 0 0 ∧
    ch.zero.min = Point.new 0 0 ∧
    (∀ p : Rat, ch.zero.percentile p = none) ∧
    (∀ r ∈ ch.zero.readings, r.output = Output.counter ∧ r.value = 0) := by
  have hperc : ∀ p : Rat, ch.zero.percentile p = none := by
    intro p
    unfold Channel.zero Channel.percentile
    cases ch.histogram <;>
      simp [Hist.percentile, Hist.clear, Hist.total_count]
  refine ⟨rfl, rfl, rfl, rfl, rfl, hperc, ?_⟩
  intro r hr
  rw [mem_readings] at hr
  obtain ⟨o, ho, v, hov, rfl⟩ := hr
  cases o with
  | counter =>
    have hv : v = 0 := by
      simpa [output_value, Channel.zero] using hov.symm
    exact ⟨rfl, hv⟩
  | maxPointTime =>
    simp [output_value, Channel.zero, Point.new] at hov
  | minPointTime =>
    simp [output_value, Channel.zero, Point.new] at hov
  | percentile p =>
    rw [show output_value ch.zero (Output.percentile p) = ch.zero.percentile p from rfl,
      hperc p] at hov
    exact Option.noConfusion hov

def chC7 : Channel :=
  { name := "z", source := Source.gauge, counter := 9, histogram := some [(5, 2)],
    last_write := 3, latched := true, max := Point.new 8 2, min := Point.new 1 2,
    outputs := [Output.counter, Output.maxPointTime, Output.minPointTime,
      Output.percentile 50],
    has_data := true }

theorem zero_resets_all_witness :
    chC7.zero.counter = 0 ∧
    chC7.zero.percentile 50 = none ∧
    Reading.new "z" Output.counter 0 ∈ chC7.zero.readings ∧
    ((Reading.new "z" Output.counter 0).output = Output.counter ∧
      (Reading.new "z" Output.counter 0).value = 0) ∧
    chC7.zero.readings = [Reading.new "z" Output.counter 0] :=
  ⟨(zero_resets_all chC7).1,
   (zero_resets_all chC7).2.2.2.2.2.1 50,
   by decide,
   (zero_resets_all chC7).2.2.2.2.2.2 (Reading.new "z" Output.counter 0) (by decide),
   by decide⟩

theorem record_distribution_fold_counter (ds : List (Nat × Nat × Nat)) :
    ∀ ch : Channel, ch.source = Source.distribution → ch.counter < u64size →
      (ds.foldl (fun c x => c.record (Measurement.distribution x.1 x.2.1 x.2.2)) ch).counter
        = (ch.counter + (ds.map (fun x => x.2.1)).sum) % u64size := by
  induction ds with
  | nil =>
    intro ch hs hlt
    simp [Nat.mod_eq_of_lt hlt]
  | cons d ds ih =>
    intro ch hs hlt
    rw [List.foldl_cons]
    have hstep : ch.record (Measurement.distribution d.1 d.2.1 d.2.2) =
        { ch with
          counter := u64add ch.counter d.2.1
          histogram := ch.histogram.map (fun h => Hist.increment h d.1 d.2.1)
          last_write := d.2.2 } := by
      simp [Channel.record, Channel.record_distribution, hs]
    rw [hstep, ih { ch with
        counter := u64add ch.counter d.2.1
        histogram := ch.histogram.map (fun h => Hist.increment h d.1 d.2.1)
        last_write := d.2.2 } hs (Nat.mod_lt _ (by decide))]
    simp only [u64add, u64size, List.map_cons, List.sum_cons]
    omega

theorem record_increment_fold_counter (is : List (Nat × Nat)) :
    ∀ ch : Channel, ch.source = Source.counter → ch.counter < u64size →
      (is.foldl (fun c x => c.record (Measurement.increment x.1 x.2)) ch).counter
        = (ch.counter + (is.map (fun x => x.1)).sum) % u64size := by
  induction is with
  | nil =>
    intro ch hs hlt
    simp [Nat.mod_eq_of_lt hlt]
  | cons d is ih =>
    intro ch hs hlt
    rw [List.foldl_cons]
    have hstep : ch.record (Measurement.increment d.1 d.2) =
        { ch with
          counter := u64add ch.counter d.1
          histogram := ch.histogram.map (fun h => Hist.increment h d.1 1)
          last_write := d.2 } := by
      simp [Channel.record, Channel.record_increment, hs]
    rw [hstep, ih { ch with
        counter := u64add ch.counter d.1
        histogram := ch.histogram.map (fun h => Hist.increment h d.1 1)
        last_write := d.2 } hs (Nat.mod_lt _ (by decide))]
    simp only [u64add, u64size, List.map_cons, List.sum_cons]
    omega

/-- Two Distribution counts of 2^63 on a fresh Distribution channel wrap
the u64 running counter to 0, so counter() differs from the mathematical
sum of the recorded counts. -/
theorem counter_sum_overflow_cex :
    (((Channel.new "c" Source.distribution none).record
          (Measurement.distribution 0 9223372036854775808 1)).record
        (Measurement.distribution 0 9223372036854775808 2)).counter ≠
      9223372036854775808 + 9223372036854775808 := by decide

/-- Claim C9 (amended): for every sequence of Distribution measurements on
a fresh Distribution-source channel, and every sequence of Increment
measurements on a fresh Counter-source channel, counter() equals the sum
of all recorded counts reduced modulo 2^64 (the counter is a wrapping u64
accumulator; the unreduced sum is only reached while it stays below
2^64). -/
theorem counter_sum_mod (name : String) (histogram : Option Hist)
    (ds : List (Nat × Nat × Nat)) (is : List (Nat × Nat)) :
    ((ds.foldl (fun c x => c.record (Measurement.distribution x.1 x.2.1 x.2.2))
        (Channel.new name Source.distribution histogram)).counter
      = (ds.map (fun x => x.2.1)).sum % u64size) ∧
    ((is.foldl (fun c x => c.record (Measurement.increment x.1 x.2))
        (Channel.new name Source.counter histogram)).counter
      = (is.map (fun x => x.1)).sum % u64size) := by
  constructor
  · have h := record_distribution_fold_counter ds (Channel.new name Source.distribution histogram)
      rfl (show (0 : Nat) < u64size by decide)
    rw [h]
    simp [Channel.new]
  · have h := record_increment_fold_counter is (Channel.new name Source.counter histogram)
      rfl (show (0 : Nat) < u64size by decide)
    rw [h]
    simp [Channel.new]
